import Mathlib

/-!
Verification development for the flood-map repository's flood-extent engine.

Shallow embedding conventions:
  * JavaScript numbers are embedded as exact rationals (ℚ); the 0.1 literal is
    the exact rational 1/10.
  * Math.round is round-half-up (floor of x + 1/2); Math.floor on an integer
    quotient is Int.fdiv; the JavaScript remainder operator keeps the sign of
    the dividend, which is Int.tmod.
  * Grid coordinates (lng, lat) = (west + j*lngStep, south + i*latStep) are
    represented by their integer index pair (i, j); with exact rational
    arithmetic the map from in-bounds indices to coordinate keys is injective,
    so the string keys of the source are faithfully modelled by the index pair.
  * The elevationData map is a partial function from cells to elevations; the
    source's lookup elevationData.get(key) || 0 is Option.getD with default 0.
  * The breadth-first search of generateFloodPolygons is a queue loop; it is
    embedded with an explicit fuel argument large enough (proved below) for the
    queue to drain, so the definition stays executable.
-/

namespace FloodMap

/-! Terrain-RGB codec: elevationToRGB from scripts/generate-tiles.js and the
decoders decodeElevation (src/lib/floodSimulation.ts) and decodeTerrainRGB
(technical docs and src/components/Map/OceanRiseLayer.ts). -/

/-- JavaScript Math.round: round half away from zero is round half up for the
values appearing here; embedded as floor of x + 1/2 (JavaScript rounds +0.5 up). -/
def jsRound (q : ℚ) : ℤ := ⌊q + 1/2⌋

/-- Terrain-RGB encoder from scripts/generate-tiles.js: shift by +10000, scale
to 0.1 m precision with Math.round, then split into three base-256 digits with
Math.floor and the JavaScript remainder operator. The source performs no range
validation. -/
def elevationToRGB (elevation : ℚ) : ℤ × ℤ × ℤ :=
  let shifted := elevation + 10000
  let scaled := jsRound (shifted / 0.1)
  (scaled.fdiv (256 * 256), (scaled.tmod (256 * 256)).fdiv 256, scaled.tmod 256)

/-- Terrain-RGB decoder from src/lib/floodSimulation.ts. -/
def decodeElevation (r g b : ℚ) : ℚ :=
  -10000 + (r * 256 * 256 + g * 256 + b) * 0.1

/-- Terrain-RGB decoder from src/components/Map/OceanRiseLayer.ts and the
documentation examples (identical formula to decodeElevation). -/
def decodeTerrainRGB (r g b : ℚ) : ℚ :=
  -10000 + (r * 256 * 256 + g * 256 + b) * 0.1

/-! Flood fill: generateFloodPolygons from src/lib/floodSimulation.ts. -/

/-- A grid cell, written (latIndex, lngIndex): the coordinate pair
(west + j*lngStep, south + i*latStep) is the cell (i, j). -/
abbrev Cell := ℤ × ℤ

/-- Bounds check of the neighbour push in generateFloodPolygons:
west ≤ lng ≤ east and south ≤ lat ≤ north, in index form. -/
def inB (res : ℕ) (c : Cell) : Prop :=
  0 ≤ c.2 ∧ c.2 ≤ (res : ℤ) ∧ 0 ≤ c.1 ∧ c.1 ≤ (res : ℤ)

instance (res : ℕ) (c : Cell) : Decidable (inB res c) := by
  unfold inB; infer_instance

/-- The four neighbours pushed by generateFloodPolygons, in source order:
lng+lngStep, lng-lngStep, lat+latStep, lat-latStep. -/
def nbrs (c : Cell) : List Cell :=
  [(c.1, c.2 + 1), (c.1, c.2 - 1), (c.1 + 1, c.2), (c.1 - 1, c.2)]

/-- The queue loop of generateFloodPolygons. State: pending queue, flooded key
set, floodedCells list (in insertion order). Each iteration pops the front,
skips already-flooded keys, skips cells whose elevation (default 0 for missing
data) is at or above the water level, and otherwise floods the cell and pushes
its in-bounds neighbours. The fuel argument only bounds the iteration count;
floodFill supplies a provably sufficient amount. -/
def floodLoop (elev : Cell → Option ℚ) (L : ℚ) (res : ℕ) :
    ℕ → List Cell → Finset Cell → List Cell → Finset Cell × List Cell
  | 0, _, fl, cells => (fl, cells)
  | _ + 1, [], fl, cells => (fl, cells)
  | fuel + 1, c :: q, fl, cells =>
    if c ∈ fl then
      floodLoop elev L res fuel q fl cells
    else if L ≤ (elev c).getD 0 then
      floodLoop elev L res fuel q fl cells
    else
      floodLoop elev L res fuel (q ++ (nbrs c).filter (fun n => decide (inB res n)))
        (insert c fl) (cells ++ [c])

/-- Flood fill from a caller-supplied seed queue: the BFS core of
generateFloodPolygons, parametrised over the seed set. -/
def floodFill (elev : Cell → Option ℚ) (L : ℚ) (res : ℕ) (seeds : List Cell) :
    Finset Cell × List Cell :=
  floodLoop elev L res (seeds.length + 5 * ((res + 1) ^ 2 + seeds.length) + 1) seeds ∅ []

/-- The ocean entry points of generateFloodPolygons: the whole west column
(Pacific), the whole east column (SF Bay) and the whole north row (Golden
Gate), in source order. -/
def seedCells (res : ℕ) : List Cell :=
  (List.range (res + 1)).map (fun i => ((i : ℤ), 0))
    ++ (List.range (res + 1)).map (fun i => ((i : ℤ), (res : ℤ)))
    ++ (List.range (res + 1)).map (fun j => ((res : ℤ), (j : ℤ)))

/-- SF_BOUNDS from src/lib/floodSimulation.ts. -/
def sfNorth : ℚ := 37.85
def sfSouth : ℚ := 37.7
def sfEast : ℚ := -122.35
def sfWest : ℚ := -122.55

def latStep (res : ℕ) : ℚ := (sfNorth - sfSouth) / res
def lngStep (res : ℕ) : ℚ := (sfEast - sfWest) / res

/-- The (lng, lat) coordinate pair of a cell, as pushed into floodedCells. -/
def cellPoint (res : ℕ) (c : Cell) : ℚ × ℚ :=
  (sfWest + c.2 * lngStep res, sfSouth + c.1 * latStep res)

/-! Convex hull: createConvexHull and cross from src/lib/floodSimulation.ts. -/

/-- Cross product test of createConvexHull. -/
def cross (o a b : ℚ × ℚ) : ℚ :=
  (a.1 - o.1) * (b.2 - o.2) - (a.2 - o.2) * (b.1 - o.1)

/-- The sort order of createConvexHull's comparator
(a, b) => a[0] - b[0] || a[1] - b[1]: ascending by x then by y. -/
def lexLe (p q : ℚ × ℚ) : Prop :=
  p.1 < q.1 ∨ (p.1 = q.1 ∧ p.2 ≤ q.2)

instance (p q : ℚ × ℚ) : Decidable (lexLe p q) := by
  unfold lexLe; infer_instance

/-- One step of the chain-building loops of createConvexHull, acting on the
chain stored in reverse (head = most recently accepted point): pop while the
last two accepted points and the new point fail the strict left-turn test,
then push the new point. -/
def addPoint : List (ℚ × ℚ) → ℚ × ℚ → List (ℚ × ℚ)
  | b :: a :: rest, p =>
    if cross a b p ≤ 0 then addPoint (a :: rest) p else p :: b :: a :: rest
  | acc, p => p :: acc

/-- createConvexHull from src/lib/floodSimulation.ts: below 3 points return the
input unchanged; otherwise sort by (x, then y), build lower and upper chains,
drop each chain's last point and concatenate. -/
def createConvexHull (points : List (ℚ × ℚ)) : List (ℚ × ℚ) :=
  if points.length < 3 then points
  else
    let sorted := points.mergeSort (fun a b => decide (lexLe a b))
    let lower := (sorted.foldl addPoint []).reverse
    let upper := (sorted.reverse.foldl addPoint []).reverse
    lower.dropLast ++ upper.dropLast

/-- Adjacent pairs of the chain stack (head = most recently accepted point):
the pair (newer, older) for each chain edge older → newer. -/
def chainPairs (S : List (ℚ × ℚ)) : List ((ℚ × ℚ) × (ℚ × ℚ)) := S.zip S.tail

/-- Invariant of the chain scan: a processed point is either on the chain or
weakly left of some chain edge whose endpoints bracket it in the sort order. -/
def Justified (S : List (ℚ × ℚ)) (q : ℚ × ℚ) : Prop :=
  q ∈ S ∨ ∃ pr ∈ chainPairs S, lexLe pr.2 q ∧ lexLe q pr.1 ∧ 0 ≤ cross pr.2 pr.1 q

/-- Justified, or bracketed by the virtual edge from the stack top to the
incoming point p (the transient state while addPoint pops). -/
def JustV (S : List (ℚ × ℚ)) (p q : ℚ × ℚ) : Prop :=
  Justified S q ∨ ∃ b T, S = b :: T ∧ lexLe b q ∧ lexLe q p ∧ 0 ≤ cross b p q

/-- The chain stack is weakly decreasing in the sort order from its head. -/
def StackLe : List (ℚ × ℚ) → Prop := List.Chain' (fun x y => lexLe y x)

/-- generateFloodPolygons from src/lib/floodSimulation.ts, returning the list
of polygon rings of the emitted features: after the flood fill, if any cell
flooded, a single feature whose ring is the convex hull of the flooded cell
coordinates is emitted; otherwise no feature. -/
def generateFloodPolygons (elev : Cell → Option ℚ) (L : ℚ) (res : ℕ) :
    List (List (ℚ × ℚ)) :=
  let floodedCells := (floodFill elev L res (seedCells res)).2
  let pts := floodedCells.map (cellPoint res)
  if 0 < pts.length then [createConvexHull pts] else []

/-- Reachability through candidate cells: the specification-side notion for the
flood fill. A cell is reachable when some 4-connected path of in-bounds cells,
all with (default-0) elevation strictly below the water level, joins a seed to
it. -/
inductive Reaches (elev : Cell → Option ℚ) (L : ℚ) (res : ℕ) (seeds : List Cell) :
    Cell → Prop
  | seed (s : Cell) (hs : s ∈ seeds) (hb : inB res s) (hc : (elev s).getD 0 < L) :
      Reaches elev L res seeds s
  | step (c d : Cell) (hr : Reaches elev L res seeds c) (hd : d ∈ nbrs c)
      (hb : inB res d) (hc : (elev d).getD 0 < L) : Reaches elev L res seeds d

/-! GPU reachability approximation: the fragment shader of
src/components/Map/OceanRiseLayer.ts. GLSL floats are embedded as rationals;
the GLSL distance function returns an irrational square root, so the
procedural elevation model is parametrised by the distance function, with
every other operation embedded exactly. -/

/-- GLSL mix. -/
def glMix (a b t : ℚ) : ℚ := a * (1 - t) + b * t

/-- GLSL mix on a coordinate pair, componentwise. -/
def glMix2 (a b : ℚ × ℚ) (t : ℚ) : ℚ × ℚ :=
  (glMix a.1 b.1 t, glMix a.2 b.2 t)

/-- getElevation from the OceanRiseLayer fragment shader: a base coastal/hill
profile, four additive hill bumps gated by distance tests, three regional
overrides, clamped at 0. The dist argument stands for the GLSL distance
function. -/
def getElevation (dist : ℚ × ℚ → ℚ × ℚ → ℚ) (coord : ℚ × ℚ) : ℚ :=
  let distFromBay := coord.1
  let distFromSouth := coord.2
  let e0 : ℚ :=
    if distFromBay < 0.15 then glMix 0 8 (distFromBay / 0.15)
    else if distFromBay > 0.85 then glMix 0 5 ((1 - distFromBay) / 0.15)
    else
      let centerDist := |distFromBay - 0.5| * 2
      glMix 50 15 centerDist
  let twinPeaksDist := dist (distFromBay, distFromSouth) (0.52, 0.35)
  let e1 := if twinPeaksDist < 0.08 then e0 + glMix 230 0 (twinPeaksDist / 0.08) else e0
  let nobHillDist := dist (distFromBay, distFromSouth) (0.42, 0.72)
  let e2 := if nobHillDist < 0.06 then e1 + glMix 90 0 (nobHillDist / 0.06) else e1
  let russianHillDist := dist (distFromBay, distFromSouth) (0.38, 0.78)
  let e3 := if russianHillDist < 0.05 then e2 + glMix 70 0 (russianHillDist / 0.05) else e2
  let pacificHeightsDist := dist (distFromBay, distFromSouth) (0.32, 0.68)
  let e4 :=
    if pacificHeightsDist < 0.08 then e3 + glMix 80 0 (pacificHeightsDist / 0.08) else e3
  let e5 :=
    if distFromBay > 0.75 ∧ distFromSouth < 0.4 then glMix e4 1 0.8 else e4
  let e6 :=
    if distFromBay > 0.65 ∧ distFromBay < 0.85 ∧ distFromSouth > 0.4 ∧ distFromSouth < 0.7
    then glMix e5 5 0.6 else e5
  let e7 :=
    if distFromBay < 0.4 ∧ distFromSouth > 0.2 ∧ distFromSouth < 0.8 then
      let sunsetElevation := glMix 8 40 (distFromBay / 0.4)
      glMix e6 sunsetElevation 0.7
    else e6
  max e7 0

/-- The open-water target edge chosen by isFloodReachable: the west edge when
the query point is in the western half, else the east edge, at the query
point's latitude. -/
def nearestWaterSource (coord : ℚ × ℚ) : ℚ × ℚ :=
  if coord.1 < 0.5 then (0, coord.2) else (1, coord.2)

/-- isFloodReachable from the OceanRiseLayer fragment shader: reject when the
query elevation exceeds the water level; accept immediately inside the three
open-water source zones; otherwise sample 19 points (i = 1..19 of the constant
bound 20 loop) along the straight line to the nearest water source edge and
reject if any sample's elevation exceeds the water level. -/
def isFloodReachable (dist : ℚ × ℚ → ℚ × ℚ → ℚ) (coord : ℚ × ℚ) (waterLevel : ℚ) :
    Bool :=
  let elevation := getElevation dist coord
  if elevation > waterLevel then false
  else if coord.1 < 0.05 then true
  else if coord.1 > 0.95 then true
  else if coord.2 > 0.95 ∧ coord.1 > 0.3 ∧ coord.1 < 0.7 then true
  else
    let target := nearestWaterSource coord
    (List.range' 1 19).all fun i =>
      decide (getElevation dist (glMix2 coord target ((i : ℚ) / 20)) ≤ waterLevel)

/-! Water-polygon generators with a waterLevel ≤ 0 guard:
generateTopographicFlood (src/components/Map/TopographicFloodModel.ts),
generateTerrainAwareWater and generateElevationAwareWater
(src/components/Map/TerrainAwareWater.ts). Features are modelled by their
property bag (names, water level, depth where present) and polygon ring. -/

/-- A feature of generateTopographicFlood: source name, waterLevel property,
polygon ring. -/
structure TopoFeature where
  source : String
  waterLevel : ℚ
  ring : List (ℚ × ℚ)
deriving DecidableEq

/-- generateTopographicFlood from src/components/Map/TopographicFloodModel.ts. -/
def generateTopographicFlood (waterLevel : ℚ) : List TopoFeature :=
  if waterLevel ≤ 0 then []
  else if waterLevel < 50 then
    [⟨"Pacific Ocean", waterLevel,
      [(-122.514, 37.79), (-122.514, 37.72),
       (-122.514 + waterLevel * 0.002, 37.72),
       (-122.514 + waterLevel * 0.002, 37.79), (-122.514, 37.79)]⟩,
     ⟨"San Francisco Bay", waterLevel,
      [(-122.37, 37.82), (-122.37, 37.71),
       (-122.37 - waterLevel * 0.003, 37.71),
       (-122.37 - waterLevel * 0.003, 37.82), (-122.37, 37.82)]⟩,
     ⟨"Golden Gate", waterLevel,
      [(-122.48, 37.81), (-122.43, 37.81),
       (-122.43, 37.81 - waterLevel * 0.001),
       (-122.48, 37.81 - waterLevel * 0.001), (-122.48, 37.81)]⟩]
  else
    [⟨"All Sources", waterLevel,
      [(-122.52, 37.84), (-122.35, 37.84), (-122.35, 37.69),
       (-122.52, 37.69), (-122.52, 37.84)]⟩]

/-- A feature of generateTerrainAwareWater: waterLevel property and ring. -/
structure TerrainFeature where
  waterLevel : ℚ
  ring : List (ℚ × ℚ)
deriving DecidableEq

/-- generateTerrainAwareWater from src/components/Map/TerrainAwareWater.ts. -/
def generateTerrainAwareWater (waterLevel : ℚ) : List TerrainFeature :=
  if waterLevel ≤ 0 then []
  else
    [⟨waterLevel,
      [(-122.55, 37.85), (-122.3, 37.85), (-122.3, 37.65),
       (-122.55, 37.65), (-122.55, 37.85)]⟩]

/-- One named area of the elevationContours table. -/
structure ContourArea where
  name : String
  ring : List (ℚ × ℚ)
deriving DecidableEq

/-- elevationContours from src/components/Map/TerrainAwareWater.ts: elevation
thresholds paired with their named areas. -/
def elevationContours : List (ℚ × List ContourArea) :=
  [(0,
    [⟨"Bay Edge",
      [(-122.395, 37.79), (-122.39, 37.785), (-122.385, 37.78),
       (-122.39, 37.775), (-122.395, 37.78), (-122.395, 37.79)]⟩,
     ⟨"Mission Creek",
      [(-122.395, 37.77), (-122.39, 37.77), (-122.39, 37.765),
       (-122.395, 37.765), (-122.395, 37.77)]⟩]),
   (2,
    [⟨"Mission Bay",
      [(-122.4, 37.78), (-122.39, 37.78), (-122.39, 37.76),
       (-122.4, 37.76), (-122.4, 37.78)]⟩,
     ⟨"Marina Flats",
      [(-122.45, 37.805), (-122.435, 37.805), (-122.435, 37.8),
       (-122.45, 37.8), (-122.45, 37.805)]⟩]),
   (5,
    [⟨"SOMA Lowlands",
      [(-122.42, 37.785), (-122.405, 37.785), (-122.405, 37.77),
       (-122.42, 37.77), (-122.42, 37.785)]⟩,
     ⟨"Marina District",
      [(-122.455, 37.81), (-122.43, 37.81), (-122.43, 37.8),
       (-122.455, 37.8), (-122.455, 37.81)]⟩]),
   (10,
    [⟨"Downtown Edge",
      [(-122.415, 37.795), (-122.405, 37.795), (-122.405, 37.785),
       (-122.415, 37.785), (-122.415, 37.795)]⟩,
     ⟨"Bayview Flats",
      [(-122.39, 37.735), (-122.38, 37.735), (-122.38, 37.725),
       (-122.39, 37.725), (-122.39, 37.735)]⟩]),
   (15,
    [⟨"Sunset Lower",
      [(-122.475, 37.76), (-122.465, 37.76), (-122.465, 37.75),
       (-122.475, 37.75), (-122.475, 37.76)]⟩,
     ⟨"Mission Valley",
      [(-122.425, 37.765), (-122.415, 37.765), (-122.415, 37.755),
       (-122.425, 37.755), (-122.425, 37.765)]⟩]),
   (25,
    [⟨"Castro Flats",
      [(-122.435, 37.765), (-122.425, 37.765), (-122.425, 37.755),
       (-122.435, 37.755), (-122.435, 37.765)]⟩]),
   (40,
    [⟨"Pacific Heights Lower",
      [(-122.445, 37.795), (-122.435, 37.795), (-122.435, 37.785),
       (-122.445, 37.785), (-122.445, 37.795)]⟩])]

/-- A feature of generateElevationAwareWater: waterLevel, contour elevation,
depth, area name, ring. -/
structure ElevFeature where
  waterLevel : ℚ
  elevation : ℚ
  depth : ℚ
  area : String
  ring : List (ℚ × ℚ)
deriving DecidableEq

/-- generateElevationAwareWater from src/components/Map/TerrainAwareWater.ts. -/
def generateElevationAwareWater (waterLevel : ℚ) : List ElevFeature :=
  if waterLevel ≤ 0 then []
  else
    (elevationContours.filter fun contour => decide (waterLevel > contour.1)).flatMap
      fun contour =>
        contour.2.map fun area =>
          ⟨waterLevel, contour.1, waterLevel - contour.1, area.name, area.ring⟩

/-! Theorems. First the codec claims. -/

/-- jsRound of an integer is that integer. -/
lemma jsRound_intCast (n : ℤ) : jsRound (n : ℚ) = n := by
  unfold jsRound
  rw [Int.floor_eq_iff]
  constructor <;> [skip; push_cast] <;> linarith

/-- Base-256 digit recomposition for nonnegative integers, matching the
fdiv/tmod digit split of elevationToRGB. -/
lemma digits_recompose (n : ℤ) (hn : 0 ≤ n) :
    n.fdiv (256 * 256) * (256 * 256) + (n.tmod (256 * 256)).fdiv 256 * 256
      + n.tmod 256 = n := by
  rw [Int.fdiv_eq_ediv _ (by norm_num), Int.tmod_eq_emod hn (by norm_num),
    Int.tmod_eq_emod hn (by norm_num),
    Int.fdiv_eq_ediv _ (by norm_num)]
  omega

/-- Encoding an exact multiple of the quantization step: the scaled value is
the multiple itself and the encoder splits it into base-256 digits. -/
lemma elevationToRGB_grid (k : ℕ) :
    elevationToRGB (-10000 + (k : ℚ) / 10)
      = ((k : ℤ).fdiv (256 * 256), ((k : ℤ).tmod (256 * 256)).fdiv 256,
          (k : ℤ).tmod 256) := by
  have h1 : (-10000 + (k : ℚ) / 10 + 10000) / 0.1 = ((k : ℤ) : ℚ) := by
    push_cast
    rw [show (0.1 : ℚ) = 1 / 10 by norm_num]
    field_simp
  simp only [elevationToRGB, h1, jsRound_intCast]

/-- C3. Codec round trip: for every elevation on the 0.1 m grid between
-10000 m and 1000000 m, decoding the encoded RGB triple returns the elevation
exactly, hence within 0.05 m. -/
theorem codec_roundtrip_exact (k : ℕ) (hk : k ≤ 10100000) :
    |decodeElevation ((elevationToRGB (-10000 + (k : ℚ) / 10)).1 : ℚ)
        ((elevationToRGB (-10000 + (k : ℚ) / 10)).2.1 : ℚ)
        ((elevationToRGB (-10000 + (k : ℚ) / 10)).2.2 : ℚ)
      - (-10000 + (k : ℚ) / 10)| ≤ 1 / 20 := by
  rw [elevationToRGB_grid]
  unfold decodeElevation
  dsimp only
  have h := digits_recompose (k : ℤ) (by positivity)
  have h2 := congrArg (fun z : ℤ => (z : ℚ)) h
  push_cast at h2
  rw [show ((0.1 : ℚ)) = 1 / 10 by norm_num, abs_le]
  constructor <;> linarith [h2]

/-- C3 witness: the round-trip theorem instantiated at 100000 (sea level,
elevation 0). -/
theorem codec_roundtrip_exact_witness :
    (100000 ≤ 10100000) ∧
      |decodeElevation ((elevationToRGB (-10000 + (100000 : ℚ) / 10)).1 : ℚ)
          ((elevationToRGB (-10000 + (100000 : ℚ) / 10)).2.1 : ℚ)
          ((elevationToRGB (-10000 + (100000 : ℚ) / 10)).2.2 : ℚ)
        - (-10000 + (100000 : ℚ) / 10)| ≤ 1 / 20 :=
  ⟨by norm_num, codec_roundtrip_exact 100000 (by norm_num)⟩

/-- C4 counterexample: decoding (128, 0, 0) yields 828860.8 m, which is not
approximately 2949.6 m (they differ by more than 800000 m). -/
theorem decode_example_counterexample :
    decodeElevation 128 0 0 = 828860.8 ∧
      ¬ |decodeElevation 128 0 0 - 2949.6| ≤ 1 := by
  have hval : decodeElevation 128 0 0 = 828860.8 := by unfold decodeElevation; norm_num
  refine ⟨hval, ?_⟩
  rw [hval, show (828860.8 : ℚ) - 2949.6 = 4129556 / 5 by norm_num,
    abs_of_pos (by norm_num : (0 : ℚ) < 4129556 / 5)]
  norm_num

/-- C4 amended: the decoders compute
elevation = -10000 + (r*65536 + g*256 + b) * 0.1, decodeTerrainRGB and
decodeElevation agree, and decoding (128, 0, 0) yields 828860.8 (the
documented 2949.6 example contradicts the formula). -/
theorem decode_formula_amended :
    (∀ r g b : ℚ, decodeElevation r g b = -10000 + (r * 65536 + g * 256 + b) / 10) ∧
      (∀ r g b : ℚ, decodeTerrainRGB r g b = decodeElevation r g b) ∧
      decodeElevation 128 0 0 = 828860.8 := by
  refine ⟨fun r g b => ?_, fun r g b => rfl, by unfold decodeElevation; norm_num⟩
  unfold decodeElevation
  norm_num
  ring

/-- C5 counterexample: encoding -20000 does not fail; it silently produces the
triple (-2, -135, -160), whose components are not bytes. -/
theorem encode_no_range_check_counterexample :
    elevationToRGB (-20000) = (-2, -135, -160) ∧ (elevationToRGB (-20000)).2.2 < 0 := by
  have harg : ((-20000 : ℚ) + 10000) / 0.1 = ((-100000 : ℤ) : ℚ) := by norm_num
  have hrgb : elevationToRGB (-20000)
      = ((-100000 : ℤ).fdiv (256 * 256), ((-100000 : ℤ).tmod (256 * 256)).fdiv 256,
          (-100000 : ℤ).tmod 256) := by
    simp only [elevationToRGB, harg, jsRound_intCast]
  rw [hrgb]
  refine ⟨?_, by decide⟩
  decide

/-- C5 amended: the encoder performs no range validation; any elevation at or
below -10001 m is silently encoded with a negative red component instead of
failing with an OutOfRange error. -/
theorem encode_out_of_range_silent (e : ℚ) (he : e ≤ -10001) :
    (elevationToRGB e).1 < 0 := by
  have hdiv : (e + 10000) / 0.1 ≤ -10 := by
    rw [div_le_iff₀ (by norm_num : (0 : ℚ) < 0.1)]
    nlinarith
  have hscaled : jsRound ((e + 10000) / 0.1) ≤ -10 := by
    unfold jsRound
    calc ⌊(e + 10000) / 0.1 + 1 / 2⌋ ≤ ⌊(-10 : ℚ) + 1 / 2⌋ :=
          Int.floor_le_floor (by linarith)
      _ ≤ -10 := by
          rw [Int.floor_le_iff]
          norm_num
  simp only [elevationToRGB]
  rw [Int.fdiv_eq_ediv _ (by norm_num : (0:ℤ) ≤ 256 * 256)]
  omega

/-- C5 witness: the amended theorem at -20000. -/
theorem encode_out_of_range_silent_witness :
    ((-20000 : ℚ) ≤ -10001) ∧ (elevationToRGB (-20000)).1 < 0 :=
  ⟨by norm_num, encode_out_of_range_silent (-20000) (by norm_num)⟩

/-! Flood-fill correctness: soundness and completeness of the BFS loop. -/

/-- The finite set of in-bounds cells. -/
def allCells (res : ℕ) : Finset Cell :=
  Finset.Icc (0 : ℤ) (res : ℤ) ×ˢ Finset.Icc (0 : ℤ) (res : ℤ)

lemma mem_allCells {res : ℕ} {c : Cell} : c ∈ allCells res ↔ inB res c := by
  simp only [allCells, Finset.mem_product, Finset.mem_Icc, inB]
  tauto

lemma card_allCells (res : ℕ) : (allCells res).card = (res + 1) ^ 2 := by
  simp only [allCells, Finset.card_product, Int.card_Icc]
  have : ((res : ℤ) + 1 - 0).toNat = res + 1 := by omega
  rw [this, sq]

lemma floodLoop_mono (elev : Cell → Option ℚ) (L : ℚ) (res : ℕ) :
    ∀ fuel q fl cells, fl ⊆ (floodLoop elev L res fuel q fl cells).1 := by
  intro fuel
  induction fuel with
  | zero => intro q fl cells; exact Finset.Subset.refl fl
  | succ n ih =>
    intro q fl cells
    cases q with
    | nil => exact Finset.Subset.refl fl
    | cons c t =>
      simp only [floodLoop]
      split
      · exact ih t fl cells
      · split
        · exact ih t fl cells
        · exact (Finset.subset_insert c fl).trans (ih _ _ _)

lemma floodLoop_sound (elev : Cell → Option ℚ) (L : ℚ) (res : ℕ) (seeds : List Cell) :
    ∀ fuel q fl cells,
      (∀ x ∈ fl, Reaches elev L res seeds x) →
      (∀ x ∈ q, (elev x).getD 0 < L → Reaches elev L res seeds x) →
      ∀ x ∈ (floodLoop elev L res fuel q fl cells).1, Reaches elev L res seeds x := by
  intro fuel
  induction fuel with
  | zero => intro q fl cells hfl _ x hx; exact hfl x hx
  | succ n ih =>
    intro q fl cells hfl hq
    cases q with
    | nil => exact hfl
    | cons c t =>
      simp only [floodLoop]
      split
      · exact ih t fl cells hfl (fun x hx => hq x (List.mem_cons_of_mem c hx))
      · split
        · exact ih t fl cells hfl (fun x hx => hq x (List.mem_cons_of_mem c hx))
        · rename_i hnfl hlt
          have hcand : (elev c).getD 0 < L := lt_of_not_le hlt
          have hreach : Reaches elev L res seeds c := hq c (List.mem_cons_self c t) hcand
          apply ih
          · intro x hx
            rcases Finset.mem_insert.mp hx with h | h
            · exact h ▸ hreach
            · exact hfl x h
          · intro x hx hxc
            rcases List.mem_append.mp hx with h | h
            · exact hq x (List.mem_cons_of_mem c h) hxc
            · have := List.mem_filter.mp h
              exact Reaches.step c x hreach this.1 (of_decide_eq_true this.2) hxc

lemma floodLoop_complete (elev : Cell → Option ℚ) (L : ℚ) (res : ℕ) :
    ∀ fuel q fl cells,
      q.length + 5 * (((allCells res ∪ q.toFinset) \ fl).card) ≤ fuel →
      (∀ x ∈ fl, ∀ n ∈ nbrs x, inB res n → (elev n).getD 0 < L → n ∈ fl ∨ n ∈ q) →
      (∀ x ∈ q, (elev x).getD 0 < L →
          x ∈ (floodLoop elev L res fuel q fl cells).1) ∧
      (∀ x ∈ (floodLoop elev L res fuel q fl cells).1,
          ∀ n ∈ nbrs x, inB res n → (elev n).getD 0 < L →
            n ∈ (floodLoop elev L res fuel q fl cells).1) := by
  intro fuel
  induction fuel with
  | zero =>
    intro q fl cells hfuel hclosed
    have hq : q = [] := List.length_eq_zero.mp (by omega)
    subst hq
    refine ⟨by simp, fun x hx n hn hb hc => ?_⟩
    rcases hclosed x hx n hn hb hc with h | h
    · exact h
    · simp at h
  | succ m ih =>
    intro q fl cells hfuel hclosed
    cases q with
    | nil =>
      refine ⟨by simp, fun x hx n hn hb hc => ?_⟩
      rcases hclosed x hx n hn hb hc with h | h
      · exact h
      · simp at h
    | cons c t =>
      have hsubset_ct : allCells res ∪ t.toFinset ⊆ allCells res ∪ (c :: t).toFinset := by
        apply Finset.union_subset_union_right
        rw [List.toFinset_cons]
        exact Finset.subset_insert c t.toFinset
      simp only [floodLoop]
      split
      · rename_i hcfl
        have hfuel' : t.length + 5 * (((allCells res ∪ t.toFinset) \ fl).card) ≤ m := by
          have hcard := Finset.card_le_card
            (Finset.sdiff_subset_sdiff hsubset_ct (Finset.Subset.refl fl))
          simp only [List.length_cons] at hfuel
          omega
        have hclosed' : ∀ x ∈ fl, ∀ n ∈ nbrs x, inB res n → (elev n).getD 0 < L →
            n ∈ fl ∨ n ∈ t := by
          intro x hx n hn hb hc
          rcases hclosed x hx n hn hb hc with h | h
          · exact Or.inl h
          · rcases List.mem_cons.mp h with h | h
            · exact Or.inl (h ▸ hcfl)
            · exact Or.inr h
        obtain ⟨A, B⟩ := ih t fl cells hfuel' hclosed'
        refine ⟨fun x hx hxc => ?_, B⟩
        rcases List.mem_cons.mp hx with h | h
        · exact h ▸ floodLoop_mono elev L res m t fl cells hcfl
        · exact A x h hxc
      · split
        · rename_i hcfl hge
          have hfuel' : t.length + 5 * (((allCells res ∪ t.toFinset) \ fl).card) ≤ m := by
            have hcard := Finset.card_le_card
              (Finset.sdiff_subset_sdiff hsubset_ct (Finset.Subset.refl fl))
            simp only [List.length_cons] at hfuel
            omega
          have hclosed' : ∀ x ∈ fl, ∀ n ∈ nbrs x, inB res n → (elev n).getD 0 < L →
              n ∈ fl ∨ n ∈ t := by
            intro x hx n hn hb hc
            rcases hclosed x hx n hn hb hc with h | h
            · exact Or.inl h
            · rcases List.mem_cons.mp h with h | h
              · exact absurd hc (by rw [h]; exact not_lt.mpr hge)
              · exact Or.inr h
          obtain ⟨A, B⟩ := ih t fl cells hfuel' hclosed'
          refine ⟨fun x hx hxc => ?_, B⟩
          rcases List.mem_cons.mp hx with h | h
          · exact absurd hxc (by rw [h]; exact not_lt.mpr hge)
          · exact A x h hxc
        · rename_i hcfl hlt
          set nbrsF := (nbrs c).filter (fun n => decide (inB res n)) with hnbrsF
          have hnbrsF_sub : nbrsF.toFinset ⊆ allCells res := by
            intro x hx
            rw [List.mem_toFinset, hnbrsF, List.mem_filter] at hx
            exact mem_allCells.mpr (of_decide_eq_true hx.2)
          have hsubS : allCells res ∪ (t ++ nbrsF).toFinset
              ⊆ allCells res ∪ (c :: t).toFinset := by
            rw [List.toFinset_append]
            intro x hx
            rcases Finset.mem_union.mp hx with h | h
            · exact Finset.mem_union_left _ h
            · rcases Finset.mem_union.mp h with h | h
              · exact Finset.mem_union_right _ (by
                  rw [List.toFinset_cons]; exact Finset.mem_insert_of_mem h)
              · exact Finset.mem_union_left _ (hnbrsF_sub h)
          have hcS : c ∈ (allCells res ∪ (c :: t).toFinset) \ fl := by
            rw [Finset.mem_sdiff]
            refine ⟨Finset.mem_union_right _ (by
              rw [List.toFinset_cons]; exact Finset.mem_insert_self c _), hcfl⟩
          have hsub_erase : (allCells res ∪ (t ++ nbrsF).toFinset) \ insert c fl
              ⊆ ((allCells res ∪ (c :: t).toFinset) \ fl).erase c := by
            intro x hx
            rw [Finset.mem_sdiff, Finset.mem_insert] at hx
            rw [Finset.mem_erase, Finset.mem_sdiff]
            push_neg at hx
            exact ⟨hx.2.1, hsubS hx.1, hx.2.2⟩
          have hfuel' : (t ++ nbrsF).length
              + 5 * (((allCells res ∪ (t ++ nbrsF).toFinset) \ insert c fl).card) ≤ m := by
            have hlen : nbrsF.length ≤ 4 := by
              have := List.length_filter_le (fun n => decide (inB res n)) (nbrs c)
              simpa [nbrs] using this
            have hcard1 := Finset.card_le_card hsub_erase
            have hcard2 := Finset.card_erase_of_mem hcS
            simp only [List.length_cons] at hfuel
            rw [List.length_append]
            have hpos : 1 ≤ ((allCells res ∪ (c :: t).toFinset) \ fl).card :=
              Finset.card_pos.mpr ⟨c, hcS⟩
            omega
          have hclosed' : ∀ x ∈ insert c fl, ∀ n ∈ nbrs x, inB res n →
              (elev n).getD 0 < L → n ∈ insert c fl ∨ n ∈ t ++ nbrsF := by
            intro x hx n hn hb hc
            rcases Finset.mem_insert.mp hx with h | h
            · subst h
              refine Or.inr (List.mem_append.mpr (Or.inr ?_))
              rw [hnbrsF, List.mem_filter]
              exact ⟨hn, decide_eq_true hb⟩
            · rcases hclosed x h n hn hb hc with h2 | h2
              · exact Or.inl (Finset.mem_insert_of_mem h2)
              · rcases List.mem_cons.mp h2 with h3 | h3
                · exact Or.inl (h3 ▸ Finset.mem_insert_self c fl)
                · exact Or.inr (List.mem_append.mpr (Or.inl h3))
          obtain ⟨A, B⟩ := ih (t ++ nbrsF) (insert c fl) (cells ++ [c]) hfuel' hclosed'
          refine ⟨fun x hx hxc => ?_, B⟩
          rcases List.mem_cons.mp hx with h | h
          · subst h
            exact floodLoop_mono elev L res m _ _ _ (Finset.mem_insert_self _ _)
          · exact A x (List.mem_append.mpr (Or.inl h)) hxc

/-- Characterization of the flood fill: a cell is flooded iff it is reachable
from a seed through in-bounds cells of elevation (default 0) strictly below
the water level. -/
lemma floodFill_mem_iff (elev : Cell → Option ℚ) (L : ℚ) (res : ℕ) (seeds : List Cell)
    (hseeds : ∀ s ∈ seeds, inB res s) (c : Cell) :
    c ∈ (floodFill elev L res seeds).1 ↔ Reaches elev L res seeds c := by
  constructor
  · intro hc
    refine floodLoop_sound elev L res seeds _ seeds ∅ [] (by simp) ?_ c hc
    intro x hx hxc
    exact Reaches.seed x hx (hseeds x hx) hxc
  · intro hr
    have hfuel : seeds.length + 5 * (((allCells res ∪ seeds.toFinset) \ ∅).card)
        ≤ seeds.length + 5 * ((res + 1) ^ 2 + seeds.length) + 1 := by
      have h1 : ((allCells res ∪ seeds.toFinset) \ ∅).card
          ≤ (res + 1) ^ 2 + seeds.length := by
        rw [Finset.sdiff_empty]
        calc (allCells res ∪ seeds.toFinset).card
            ≤ (allCells res).card + seeds.toFinset.card := Finset.card_union_le _ _
          _ ≤ (res + 1) ^ 2 + seeds.length := by
              rw [card_allCells]
              exact Nat.add_le_add_left (List.toFinset_card_le seeds) _
      omega
    obtain ⟨A, B⟩ := floodLoop_complete elev L res _ seeds ∅ [] hfuel (by simp)
    induction hr with
    | seed s hs _ hc => exact A s hs hc
    | step a d _ hd hb hc ihstep => exact B a ihstep d hd hb hc

/-- Candidate-hood is monotone in the water level, hence so is reachability. -/
lemma Reaches.mono {elev : Cell → Option ℚ} {L1 L2 : ℚ} {res : ℕ} {seeds : List Cell}
    (hL : L1 ≤ L2) {c : Cell} (h : Reaches elev L1 res seeds c) :
    Reaches elev L2 res seeds c := by
  induction h with
  | seed s hs hb hc => exact Reaches.seed s hs hb (lt_of_lt_of_le hc hL)
  | step a d _ hd hb hc iha => exact Reaches.step a d iha hd hb (lt_of_lt_of_le hc hL)

/-- C1. A cell is in the flood-fill result iff it is reachable from a seed
cell through a 4-connected path of in-bounds cells whose elevation is strictly
below the water level; in particular a cell enclosed by cells at or above the
water level is unreachable and therefore never included. -/
theorem flooded_iff_reachable (elev : Cell → Option ℚ) (L : ℚ) (res : ℕ)
    (seeds : List Cell) (hseeds : ∀ s ∈ seeds, inB res s) (c : Cell) :
    c ∈ (floodFill elev L res seeds).1 ↔ Reaches elev L res seeds c :=
  floodFill_mem_iff elev L res seeds hseeds c

/-- C1 witness: the characterization at a concrete 2-by-2 grid with a single
seed. -/
theorem flooded_iff_reachable_witness :
    (∀ s ∈ [((0 : ℤ), (0 : ℤ))], inB 1 s) ∧
      (((0 : ℤ), (0 : ℤ)) ∈ (floodFill (fun _ => some 0) 1 1 [((0 : ℤ), (0 : ℤ))]).1 ↔
        Reaches (fun _ => some 0) 1 1 [((0 : ℤ), (0 : ℤ))] ((0 : ℤ), (0 : ℤ))) :=
  ⟨by decide, flooded_iff_reachable (fun _ => some 0) 1 1 [((0 : ℤ), (0 : ℤ))]
    (by decide) ((0 : ℤ), (0 : ℤ))⟩

/-- C2. For a fixed grid and seed set, the flooded-cell set is monotonically
non-decreasing in the water level. -/
theorem flooded_monotone (elev : Cell → Option ℚ) (L1 L2 : ℚ) (res : ℕ)
    (seeds : List Cell) (hL : L1 ≤ L2) (hseeds : ∀ s ∈ seeds, inB res s) :
    (floodFill elev L1 res seeds).1 ⊆ (floodFill elev L2 res seeds).1 := by
  intro c hc
  rw [floodFill_mem_iff elev L2 res seeds hseeds c]
  exact Reaches.mono hL ((floodFill_mem_iff elev L1 res seeds hseeds c).mp hc)

/-- C2 witness: monotonicity applied at water levels 0 and 1 on a concrete
grid. -/
theorem flooded_monotone_witness :
    ((0 : ℚ) ≤ 1) ∧ (∀ s ∈ [((0 : ℤ), (0 : ℤ))], inB 1 s) ∧
      (floodFill (fun _ => some 0) 0 1 [((0 : ℤ), (0 : ℤ))]).1
        ⊆ (floodFill (fun _ => some 0) 1 1 [((0 : ℤ), (0 : ℤ))]).1 :=
  ⟨by norm_num, by decide,
    flooded_monotone (fun _ => some 0) 0 1 1 [((0 : ℤ), (0 : ℤ))] (by norm_num) (by decide)⟩

/-- C6 counterexample: in a 2-by-2 grid where only cell (0,0) has elevation
data (-5 m), the cell (0,1) carries no data, is adjacent to the seed (0,0),
and at water level 1 the flood fill includes it (missing data is looked up as
elevation 0); the fill even propagates through it to the data-free cell (1,1). -/
theorem nodata_flooded_counterexample :
    (fun c : Cell => if c = ((0 : ℤ), (0 : ℤ)) then some (-5 : ℚ) else none)
        ((0 : ℤ), (1 : ℤ)) = none ∧
      ((0 : ℤ), (1 : ℤ)) ∈ nbrs ((0 : ℤ), (0 : ℤ)) ∧
      ((0 : ℤ), (1 : ℤ)) ∈ (floodFill
        (fun c : Cell => if c = ((0 : ℤ), (0 : ℤ)) then some (-5 : ℚ) else none)
        1 1 [((0 : ℤ), (0 : ℤ))]).1 ∧
      ((1 : ℤ), (1 : ℤ)) ∈ (floodFill
        (fun c : Cell => if c = ((0 : ℤ), (0 : ℤ)) then some (-5 : ℚ) else none)
        1 1 [((0 : ℤ), (0 : ℤ))]).1 := by
  refine ⟨rfl, by decide, by decide, by decide⟩

lemma floodLoop_getD (elev : Cell → Option ℚ) (L : ℚ) (res : ℕ) :
    ∀ fuel q fl cells,
      floodLoop (fun c => some ((elev c).getD 0)) L res fuel q fl cells
        = floodLoop elev L res fuel q fl cells := by
  intro fuel
  induction fuel with
  | zero => intro q fl cells; rfl
  | succ n ih =>
    intro q fl cells
    cases q with
    | nil => rfl
    | cons c t =>
      simp only [floodLoop, Option.getD_some]
      split
      · exact ih t fl cells
      · split
        · exact ih t fl cells
        · exact ih _ _ _

/-- C6 amended: the flood fill has no notion of a no-data sentinel; a cell
with no elevation entry behaves exactly like a cell with elevation 0, so (per
the counterexample) a data-free cell adjacent to a seed is flooded whenever
the water level is positive, and the fill propagates through it. -/
theorem nodata_equals_zero_elevation (elev : Cell → Option ℚ) (L : ℚ) (res : ℕ)
    (seeds : List Cell) :
    floodFill (fun c => some ((elev c).getD 0)) L res seeds
      = floodFill elev L res seeds := by
  unfold floodFill
  exact floodLoop_getD elev L res _ seeds ∅ []

/-- C9. The GPU reachability approximation reports a point flooded only if
its procedural elevation does not exceed the water level; and outside the
three immediate open-water source zones it accepts exactly when, in addition,
none of the 19 sample points on the straight line towards the nearer
open-water edge (west for the western half, east otherwise) has elevation
exceeding the water level. -/
theorem gpu_reachability_characterization (dist : ℚ × ℚ → ℚ × ℚ → ℚ) (L : ℚ) :
    (∀ coord, isFloodReachable dist coord L = true → getElevation dist coord ≤ L) ∧
      (∀ coord, (0.05 : ℚ) ≤ coord.1 → coord.1 ≤ 0.95 →
        ¬(coord.2 > 0.95 ∧ coord.1 > 0.3 ∧ coord.1 < 0.7) →
        (isFloodReachable dist coord L = true ↔
          (getElevation dist coord ≤ L ∧
            ∀ i ∈ List.range' 1 19,
              getElevation dist (glMix2 coord (nearestWaterSource coord) ((i : ℚ) / 20))
                ≤ L))) := by
  constructor
  · intro coord h
    by_cases helev : getElevation dist coord > L
    · simp only [isFloodReachable, if_pos helev] at h
      exact absurd h (by simp)
    · exact not_lt.mp helev
  · intro coord h1 h2 h3
    by_cases helev : getElevation dist coord > L
    · simp only [isFloodReachable, if_pos helev]
      constructor
      · intro h; exact absurd h (by simp)
      · intro h; exact absurd h.1 (not_le.mpr helev)
    · simp only [isFloodReachable, if_neg helev, if_neg (not_lt.mpr h1),
        if_neg (not_lt.mpr h2), if_neg h3]
      rw [List.all_eq_true]
      constructor
      · intro h
        exact ⟨not_lt.mp helev, fun i hi => of_decide_eq_true (h i hi)⟩
      · intro h i hi
        exact decide_eq_true (h.2 i hi)

/-- C9 witness: the characterization applied at the centre point (1/2, 1/2)
with the constant-zero distance function and water level 5. -/
theorem gpu_reachability_characterization_witness :
    ((0.05 : ℚ) ≤ (1 / 2 : ℚ)) ∧ ((1 / 2 : ℚ) ≤ 0.95) ∧
      ¬(((1 / 2 : ℚ), (1 / 2 : ℚ)).2 > 0.95 ∧ ((1 / 2 : ℚ), (1 / 2 : ℚ)).1 > 0.3 ∧
          ((1 / 2 : ℚ), (1 / 2 : ℚ)).1 < 0.7) ∧
      (isFloodReachable (fun _ _ => 0) ((1 / 2 : ℚ), (1 / 2 : ℚ)) 5 = true ↔
        (getElevation (fun _ _ => 0) ((1 / 2 : ℚ), (1 / 2 : ℚ)) ≤ 5 ∧
          ∀ i ∈ List.range' 1 19,
            getElevation (fun _ _ => 0)
              (glMix2 ((1 / 2 : ℚ), (1 / 2 : ℚ))
                (nearestWaterSource ((1 / 2 : ℚ), (1 / 2 : ℚ))) ((i : ℚ) / 20)) ≤ 5)) :=
  ⟨by norm_num, by norm_num, by norm_num,
    (gpu_reachability_characterization (fun _ _ => 0) 5).2 ((1 / 2 : ℚ), (1 / 2 : ℚ))
      (by norm_num) (by norm_num) (by norm_num)⟩

/-- C10. All three water-polygon generators return the empty feature list for
any water level at or below zero. -/
theorem water_generators_empty_at_nonpositive_level (L : ℚ) (hL : L ≤ 0) :
    generateTopographicFlood L = [] ∧ generateTerrainAwareWater L = [] ∧
      generateElevationAwareWater L = [] := by
  refine ⟨?_, ?_, ?_⟩
  · simp [generateTopographicFlood, if_pos hL]
  · simp [generateTerrainAwareWater, if_pos hL]
  · simp [generateElevationAwareWater, if_pos hL]

/-- C10 witness: at water level 0 all three generators return no features. -/
theorem water_generators_empty_at_nonpositive_level_witness :
    ((0 : ℚ) ≤ 0) ∧
      (generateTopographicFlood 0 = [] ∧ generateTerrainAwareWater 0 = [] ∧
        generateElevationAwareWater 0 = []) :=
  ⟨le_refl 0, water_generators_empty_at_nonpositive_level 0 (le_refl 0)⟩

/-- C8 counterexample: a run in which exactly one cell floods (one distinct
point, fewer than 3) still emits a polygon feature; the polygon list is not
empty. -/
theorem degenerate_polygon_counterexample :
    ((floodFill (fun c : Cell => if c = ((0 : ℤ), (0 : ℤ)) then some (-1 : ℚ) else some 10)
        0 1 (seedCells 1)).2).length = 1 ∧
      generateFloodPolygons
        (fun c : Cell => if c = ((0 : ℤ), (0 : ℤ)) then some (-1 : ℚ) else some 10)
        0 1 ≠ [] := by
  constructor <;> decide

/-- C8 amended: the polygon-building path never raises an error and emits an
empty polygon list exactly when no cell flooded; with one or two distinct
flooded points a single degenerate polygon (the point list itself, since
createConvexHull returns inputs of fewer than 3 points unchanged) is emitted
rather than an empty list. -/
theorem polygons_empty_iff_no_flooded (elev : Cell → Option ℚ) (L : ℚ) (res : ℕ) :
    generateFloodPolygons elev L res = []
      ↔ (floodFill elev L res (seedCells res)).2 = [] := by
  unfold generateFloodPolygons
  cases h : (floodFill elev L res (seedCells res)).2 with
  | nil => simp [h]
  | cons a t => simp [h]

/-! Convex-hull containment: basic order and cross-product lemmas. -/

lemma lexLe_refl (p : ℚ × ℚ) : lexLe p p := Or.inr ⟨rfl, le_refl _⟩

lemma lexLe_trans {p q r : ℚ × ℚ} (h1 : lexLe p q) (h2 : lexLe q r) : lexLe p r := by
  rcases h1 with h1 | ⟨h1, h1'⟩ <;> rcases h2 with h2 | ⟨h2, h2'⟩
  · exact Or.inl (lt_trans h1 h2)
  · exact Or.inl (h2 ▸ h1)
  · exact Or.inl (h1 ▸ h2)
  · exact Or.inr ⟨h1.trans h2, h1'.trans h2'⟩

lemma lexLe_antisymm {p q : ℚ × ℚ} (h1 : lexLe p q) (h2 : lexLe q p) : p = q := by
  rcases h1 with h1 | ⟨h1, h1'⟩
  · rcases h2 with h2 | ⟨h2, h2'⟩
    · exact absurd h2 (not_lt.mpr (le_of_lt h1))
    · exact absurd h1 (not_lt.mpr (le_of_eq h2))
  · rcases h2 with h2 | ⟨h2, h2'⟩
    · exact absurd h2 (not_lt.mpr (le_of_eq h1))
    · exact Prod.ext h1 (le_antisymm h1' h2')

lemma lexLe_total (p q : ℚ × ℚ) : lexLe p q ∨ lexLe q p := by
  rcases lt_trichotomy p.1 q.1 with h | h | h
  · exact Or.inl (Or.inl h)
  · rcases le_total p.2 q.2 with h2 | h2
    · exact Or.inl (Or.inr ⟨h, h2⟩)
    · exact Or.inr (Or.inr ⟨h.symm, h2⟩)
  · exact Or.inr (Or.inl h)

lemma lexLe_fst {p q : ℚ × ℚ} (h : lexLe p q) : p.1 ≤ q.1 := by
  rcases h with h | ⟨h, _⟩
  · exact le_of_lt h
  · exact le_of_eq h

lemma lexLe_neg {p q : ℚ × ℚ} : lexLe (-p) (-q) ↔ lexLe q p := by
  unfold lexLe
  rw [Prod.fst_neg, Prod.fst_neg, Prod.snd_neg, Prod.snd_neg]
  constructor <;> intro h <;> rcases h with h | ⟨h, h'⟩
  · exact Or.inl (by linarith)
  · exact Or.inr ⟨by linarith, by linarith⟩
  · exact Or.inl (by linarith)
  · exact Or.inr ⟨by linarith, by linarith⟩

lemma cross_neg_neg_neg (o a b : ℚ × ℚ) : cross (-o) (-a) (-b) = cross o a b := by
  unfold cross
  rw [Prod.fst_neg, Prod.fst_neg, Prod.fst_neg, Prod.snd_neg, Prod.snd_neg, Prod.snd_neg]
  ring

/-- Sort-order displacement cone: the difference of two lex-ordered points has
positive x, or zero x and nonnegative y. -/
lemma lexLe_cone {a z : ℚ × ℚ} (h : lexLe a z) :
    0 < z.1 - a.1 ∨ (z.1 - a.1 = 0 ∧ 0 ≤ z.2 - a.2) := by
  rcases h with h | ⟨h, h'⟩
  · exact Or.inl (by linarith)
  · exact Or.inr ⟨by linarith, by linarith⟩

/-- Angular-order transitivity in the right half-plane cone: if v is weakly
left of u and u is weakly left of w (as displacement vectors in the cone),
then v is weakly left of w. The degeneracy hypothesis covers the zero vector
u. -/
lemma coreTrans (ux uy vx vy wx wy : ℚ)
    (hu : 0 < ux ∨ (ux = 0 ∧ 0 ≤ uy)) (hv : 0 < vx ∨ (vx = 0 ∧ 0 ≤ vy))
    (hw : 0 < wx ∨ (wx = 0 ∧ 0 ≤ wy))
    (h1 : 0 ≤ ux * vy - uy * vx) (h2 : 0 ≤ wx * uy - wy * ux)
    (hdeg : ux = 0 → uy = 0 → (vx = 0 ∧ vy = 0) ∨ (wx = 0 ∧ wy = 0)) :
    0 ≤ wx * vy - wy * vx := by
  have hvx : 0 ≤ vx := by rcases hv with h | ⟨h, _⟩ <;> linarith
  have hwx : 0 ≤ wx := by rcases hw with h | ⟨h, _⟩ <;> linarith
  rcases hu with hux | ⟨hux, huy⟩
  · nlinarith [mul_nonneg hwx h1, mul_nonneg hvx h2]
  · rcases (lt_or_eq_of_le huy) with huy' | huy'
    · have hvx0 : vx = 0 := by
        have hle : vx ≤ 0 := by
          by_contra hgt
          push_neg at hgt
          have hprod := mul_pos huy' hgt
          rw [hux] at h1
          nlinarith
        exact le_antisymm hle hvx
      have hvy : 0 ≤ vy := by
        rcases hv with h | ⟨_, h⟩
        · exact absurd hvx0 (ne_of_gt h)
        · exact h
      rw [hvx0]
      nlinarith [mul_nonneg hwx hvy]
    · rcases hdeg hux huy'.symm with ⟨h3, h4⟩ | ⟨h3, h4⟩ <;> rw [h3, h4] <;> ring_nf
      · simp
      · simp

/-- Wedge lemma at the shared lower endpoint a: a point q bracketed by a and b
and weakly left of the edge a → b stays weakly left of a → p when p is weakly
right of a → b and lex-beyond a. -/
lemma wedge1 {a b p q : ℚ × ℚ} (hab : lexLe a b) (haq : lexLe a q) (hqb : lexLe q b)
    (hap : lexLe a p) (h1 : 0 ≤ cross a b q) (h2 : cross a b p ≤ 0) :
    0 ≤ cross a p q := by
  have hcore := coreTrans (b.1 - a.1) (b.2 - a.2) (q.1 - a.1) (q.2 - a.2)
    (p.1 - a.1) (p.2 - a.2) (lexLe_cone hab) (lexLe_cone haq) (lexLe_cone hap)
    (by unfold cross at h1; linarith [h1])
    (by unfold cross at h2; nlinarith [h2])
    (fun hx hy => by
      have hba : b = a := by
        apply Prod.ext <;> linarith
      have hqa : q = a := lexLe_antisymm (hba ▸ hqb) haq
      exact Or.inl ⟨by rw [hqa]; ring, by rw [hqa]; ring⟩)
  unfold cross
  linarith [hcore]

/-- Wedge lemma at the shared upper endpoint p: a point q bracketed by b and p
and weakly left of the edge b → p stays weakly left of a → p when b was popped
because p is weakly right of a → b. -/
lemma wedge2 {a b p q : ℚ × ℚ} (hab : lexLe a b) (hbp : lexLe b p) (hbq : lexLe b q)
    (hqp : lexLe q p) (h1 : 0 ≤ cross b p q) (h2 : cross a b p ≤ 0) :
    0 ≤ cross a p q := by
  have hap : lexLe a p := lexLe_trans hab hbp
  have hcone_u := lexLe_cone hbp
  have hcone_v := lexLe_cone hap
  have hcone_w := lexLe_cone hqp
  have hcore := coreTrans (p.1 - b.1) (p.2 - b.2) (p.1 - a.1) (p.2 - a.2)
    (p.1 - q.1) (p.2 - q.2) hcone_u hcone_v hcone_w
    (by unfold cross at h2; nlinarith [h2])
    (by unfold cross at h1; nlinarith [h1])
    (fun hx hy => by
      have hbpe : b = p := by apply Prod.ext <;> linarith
      have hqpe : q = p := lexLe_antisymm hqp (hbpe ▸ hbq)
      exact Or.inr ⟨by rw [hqpe]; ring, by rw [hqpe]; ring⟩)
  unfold cross
  nlinarith [hcore]

lemma cross_swap (o a b : ℚ × ℚ) : cross o a b = -cross o b a := by
  unfold cross; ring

lemma chainPairs_nil : chainPairs [] = [] := rfl

lemma chainPairs_single (x : ℚ × ℚ) : chainPairs [x] = [] := rfl

lemma chainPairs_cons_cons (x y : ℚ × ℚ) (l : List (ℚ × ℚ)) :
    chainPairs (x :: y :: l) = (x, y) :: chainPairs (y :: l) := rfl

lemma mem_chainPairs {pr : (ℚ × ℚ) × (ℚ × ℚ)} {S : List (ℚ × ℚ)}
    (h : pr ∈ chainPairs S) : pr.1 ∈ S ∧ pr.2 ∈ S := by
  obtain ⟨x, y⟩ := pr
  unfold chainPairs at h
  obtain ⟨h1, h2⟩ := List.of_mem_zip h
  exact ⟨h1, List.mem_of_mem_tail h2⟩

lemma addPoint_eq_cons (S : List (ℚ × ℚ)) (p : ℚ × ℚ) :
    ∃ T, addPoint S p = p :: T ∧ ∀ x ∈ T, x ∈ S := by
  induction S with
  | nil => exact ⟨[], rfl, by simp⟩
  | cons b S' ih =>
    cases S' with
    | nil => exact ⟨[b], rfl, by simp⟩
    | cons a rest =>
      simp only [addPoint]
      split
      · obtain ⟨T, hT, hTsub⟩ := ih
        exact ⟨T, hT, fun x hx => List.mem_cons_of_mem b (hTsub x hx)⟩
      · exact ⟨b :: a :: rest, rfl, fun x hx => hx⟩

lemma addPoint_stackLe {S : List (ℚ × ℚ)} {p : ℚ × ℚ} (hS : StackLe S)
    (hSp : ∀ x ∈ S, lexLe x p) : StackLe (addPoint S p) := by
  induction S with
  | nil => exact List.chain'_singleton p
  | cons b S' ih =>
    cases S' with
    | nil =>
      exact List.chain'_cons.mpr ⟨hSp b (List.mem_singleton_self b), List.chain'_singleton b⟩
    | cons a rest =>
      simp only [addPoint]
      split
      · exact ih (List.Chain'.tail hS) (fun x hx => hSp x (List.mem_cons_of_mem b hx))
      · exact List.chain'_cons.mpr ⟨hSp b (List.mem_cons_self b _), hS⟩

lemma addPoint_getLast? {S : List (ℚ × ℚ)} (p : ℚ × ℚ) (hS : S ≠ []) :
    (addPoint S p).getLast? = S.getLast? := by
  induction S with
  | nil => exact absurd rfl hS
  | cons b S' ih =>
    cases S' with
    | nil => rfl
    | cons a rest =>
      simp only [addPoint]
      split
      · rw [ih (by simp), List.getLast?_cons_cons]
      · rw [List.getLast?_cons_cons]

lemma addPoint_two_le {S : List (ℚ × ℚ)} (p : ℚ × ℚ) (hS : S ≠ []) :
    2 ≤ (addPoint S p).length := by
  induction S with
  | nil => exact absurd rfl hS
  | cons b S' ih =>
    cases S' with
    | nil => simp [addPoint]
    | cons a rest =>
      simp only [addPoint]
      split
      · exact ih (by simp)
      · simp [List.length_cons]

/-- Preservation of the justification invariant by one addPoint step. -/
lemma addPoint_justified {S : List (ℚ × ℚ)} {p q : ℚ × ℚ} (hS : StackLe S)
    (hSp : ∀ x ∈ S, lexLe x p) (hJ : JustV S p q) : Justified (addPoint S p) q := by
  induction S with
  | nil =>
    rcases hJ with (h | ⟨pr, hpr, _⟩) | ⟨b', T, hbt, _⟩
    · simp at h
    · simp [chainPairs_nil] at hpr
    · simp at hbt
  | cons b S' ih =>
    cases S' with
    | nil =>
      rcases hJ with (h | ⟨pr, hpr, _⟩) | ⟨b', T, hbt, hb'q, hqp, hcr⟩
      · exact Or.inl (List.mem_cons_of_mem p h)
      · simp [chainPairs_single] at hpr
      · have hb' : b' = b := by injection hbt with h1 h2; exact h1.symm
        subst hb'
        refine Or.inr ⟨(p, b'), ?_, hb'q, hqp, hcr⟩
        show (p, b') ∈ chainPairs [p, b']
        rw [chainPairs_cons_cons]
        exact List.mem_cons_self _ _
    | cons a rest =>
      have hab : lexLe a b := (List.chain'_cons.mp hS).1
      have hS' : StackLe (a :: rest) := List.Chain'.tail hS
      have hSp' : ∀ x ∈ a :: rest, lexLe x p :=
        fun x hx => hSp x (List.mem_cons_of_mem b hx)
      have hbp : lexLe b p := hSp b (List.mem_cons_self b _)
      have hap : lexLe a p := hSp a (List.mem_cons_of_mem b (List.mem_cons_self a _))
      simp only [addPoint]
      split
      · rename_i hpop
        apply ih hS' hSp'
        rcases hJ with (h | ⟨pr, hpr, hpr2q, hq2pr1, hcr⟩) | ⟨b', T, hbt, hb'q, hqp, hcr⟩
        · rcases List.mem_cons.mp h with h | h
          · subst h
            refine Or.inr ⟨a, rest, rfl, hab, hbp, ?_⟩
            rw [cross_swap]
            linarith [hpop]
          · exact Or.inl (Or.inl h)
        · rw [chainPairs_cons_cons] at hpr
          rcases List.mem_cons.mp hpr with h | h
          · subst h
            refine Or.inr ⟨a, rest, rfl, hpr2q, lexLe_trans hq2pr1 hbp, ?_⟩
            exact wedge1 hab hpr2q hq2pr1 hap hcr hpop
          · exact Or.inl (Or.inr ⟨pr, h, hpr2q, hq2pr1, hcr⟩)
        · have hb' : b' = b := by injection hbt with h1 h2; exact h1.symm
          have hT : T = a :: rest := by injection hbt with h1 h2; exact h2.symm
          subst hb'; subst hT
          refine Or.inr ⟨a, rest, rfl, lexLe_trans hab hb'q, hqp, ?_⟩
          exact wedge2 hab hbp hb'q hqp hcr hpop
      · rcases hJ with (h | ⟨pr, hpr, hpr2q, hq2pr1, hcr⟩) | ⟨b', T, hbt, hb'q, hqp, hcr⟩
        · exact Or.inl (List.mem_cons_of_mem p h)
        · refine Or.inr ⟨pr, ?_, hpr2q, hq2pr1, hcr⟩
          rw [chainPairs_cons_cons]
          exact List.mem_cons_of_mem _ hpr
        · have hb' : b' = b := by injection hbt with h1 h2; exact h1.symm
          subst hb'
          refine Or.inr ⟨(p, b'), ?_, hb'q, hqp, hcr⟩
          rw [chainPairs_cons_cons]
          exact List.mem_cons_self _ _

/-- The chain scan justifies every processed point and preserves existing
justifications. -/
lemma foldl_addPoint_justified (l : List (ℚ × ℚ)) :
    ∀ S, StackLe S → (∀ x ∈ S, ∀ r ∈ l, lexLe x r) → l.Pairwise lexLe →
      (∀ q, Justified S q → Justified (l.foldl addPoint S) q) ∧
      (∀ q ∈ l, Justified (l.foldl addPoint S) q) := by
  induction l with
  | nil => intro S _ _ _; exact ⟨fun q h => h, by simp⟩
  | cons p t ih =>
    intro S hS hSl hp
    obtain ⟨hp1, hp2⟩ := List.pairwise_cons.mp hp
    have hSp : ∀ x ∈ S, lexLe x p := fun x hx => hSl x hx p (List.mem_cons_self p t)
    obtain ⟨T, hT, hTsub⟩ := addPoint_eq_cons S p
    have hS' : StackLe (addPoint S p) := addPoint_stackLe hS hSp
    have hS'l : ∀ x ∈ addPoint S p, ∀ r ∈ t, lexLe x r := by
      intro x hx r hr
      rw [hT] at hx
      rcases List.mem_cons.mp hx with h | h
      · exact h ▸ hp1 r hr
      · exact hSl x (hTsub x h) r (List.mem_cons_of_mem p hr)
    obtain ⟨P1, P2⟩ := ih (addPoint S p) hS' hS'l hp2
    rw [List.foldl_cons]
    refine ⟨fun q hq => P1 q (addPoint_justified hS hSp (Or.inl hq)), fun q hq => ?_⟩
    rcases List.mem_cons.mp hq with h | h
    · subst h
      exact P1 q (Or.inl (by rw [hT]; exact List.mem_cons_self q T))
    · exact P2 q h

lemma foldl_addPoint_ne_nil (l : List (ℚ × ℚ)) :
    ∀ S, S ≠ [] → l.foldl addPoint S ≠ [] := by
  induction l with
  | nil => intro S hS; exact hS
  | cons p t ih =>
    intro S _
    rw [List.foldl_cons]
    obtain ⟨T, hT, _⟩ := addPoint_eq_cons S p
    exact ih _ (by rw [hT]; exact List.cons_ne_nil p T)

lemma foldl_addPoint_getLast? (l : List (ℚ × ℚ)) :
    ∀ S, S ≠ [] → (l.foldl addPoint S).getLast? = S.getLast? := by
  induction l with
  | nil => intro S _; rfl
  | cons p t ih =>
    intro S hS
    rw [List.foldl_cons]
    obtain ⟨T, hT, _⟩ := addPoint_eq_cons S p
    rw [ih _ (by rw [hT]; exact List.cons_ne_nil p T), addPoint_getLast? p hS]

lemma foldl_addPoint_head? (l : List (ℚ × ℚ)) :
    ∀ S, l ≠ [] → (l.foldl addPoint S).head? = l.getLast? := by
  induction l with
  | nil => intro S hl; exact absurd rfl hl
  | cons p t ih =>
    intro S _
    rw [List.foldl_cons]
    cases t with
    | nil =>
      obtain ⟨T, hT, _⟩ := addPoint_eq_cons S p
      simp [hT]
    | cons r t' =>
      rw [ih _ (List.cons_ne_nil r t'), List.getLast?_cons_cons]

lemma foldl_addPoint_two_le (l : List (ℚ × ℚ)) :
    ∀ S, S ≠ [] → l ≠ [] → 2 ≤ (l.foldl addPoint S).length := by
  induction l with
  | nil => intro S _ hl; exact absurd rfl hl
  | cons p t ih =>
    intro S hS _
    rw [List.foldl_cons]
    cases t with
    | nil => exact addPoint_two_le p hS
    | cons r t' =>
      obtain ⟨T, hT, _⟩ := addPoint_eq_cons S p
      exact ih _ (by rw [hT]; exact List.cons_ne_nil p T) (List.cons_ne_nil r t')

lemma addPoint_map_neg (S : List (ℚ × ℚ)) (p : ℚ × ℚ) :
    addPoint (S.map (fun x => -x)) (-p) = (addPoint S p).map (fun x => -x) := by
  induction S with
  | nil => rfl
  | cons b S' ih =>
    cases S' with
    | nil => rfl
    | cons a rest =>
      simp only [List.map_cons, addPoint, cross_neg_neg_neg]
      split
      · rw [← List.map_cons]
        exact ih
      · rw [List.map_cons, List.map_cons, List.map_cons]

lemma foldl_addPoint_map_neg (l : List (ℚ × ℚ)) :
    ∀ S, (l.map (fun x => -x)).foldl addPoint (S.map (fun x => -x))
      = (l.foldl addPoint S).map (fun x => -x) := by
  induction l with
  | nil => intro S; rfl
  | cons p t ih =>
    intro S
    rw [List.map_cons, List.foldl_cons, List.foldl_cons, addPoint_map_neg]
    exact ih (addPoint S p)

lemma chainPairs_map_neg (S : List (ℚ × ℚ)) :
    chainPairs (S.map (fun x => -x))
      = (chainPairs S).map (Prod.map (fun x => -x) (fun x => -x)) := by
  unfold chainPairs
  rw [← List.map_tail, List.zip_map]

/-- Justification of the negated point on the negated stack, read back on the
original stack: the bracket order is reversed. -/
lemma justified_of_neg {S : List (ℚ × ℚ)} {q : ℚ × ℚ}
    (h : Justified (S.map (fun x => -x)) (-q)) :
    q ∈ S ∨ ∃ pr ∈ chainPairs S, lexLe pr.1 q ∧ lexLe q pr.2 ∧ 0 ≤ cross pr.2 pr.1 q := by
  rcases h with h | ⟨pr', hpr', h1, h2, h3⟩
  · obtain ⟨x, hx, hxq⟩ := List.mem_map.mp h
    exact Or.inl ((neg_inj.mp hxq) ▸ hx)
  · rw [chainPairs_map_neg] at hpr'
    obtain ⟨pr, hpr, hpreq⟩ := List.mem_map.mp hpr'
    subst hpreq
    refine Or.inr ⟨pr, hpr, ?_, ?_, ?_⟩
    · exact lexLe_neg.mp h2
    · exact lexLe_neg.mp h1
    · rw [show (Prod.map (fun x : ℚ × ℚ => -x) (fun x : ℚ × ℚ => -x) pr).2 = -pr.2 from rfl,
        show (Prod.map (fun x : ℚ × ℚ => -x) (fun x : ℚ × ℚ => -x) pr).1 = -pr.1 from rfl,
        cross_neg_neg_neg] at h3
      exact h3

/-- A point vertically between the endpoints of a vertical segment lies on it. -/
lemma seg_vertical {a b q : ℚ × ℚ} (h1 : q.1 = a.1) (h1' : b.1 = a.1)
    (h2 : a.2 ≤ q.2) (h3 : q.2 ≤ b.2) : q ∈ segment ℚ a b := by
  by_cases hba : b.2 = a.2
  · have hqa : q = a := Prod.ext h1 (le_antisymm (hba ▸ h3) h2)
    exact hqa ▸ left_mem_segment ℚ a b
  · have hpos : 0 < b.2 - a.2 := by
      rcases lt_or_eq_of_le (h2.trans h3) with h | h
      · linarith
      · exact absurd h.symm hba
    refine ⟨1 - (q.2 - a.2) / (b.2 - a.2), (q.2 - a.2) / (b.2 - a.2), ?_, ?_, by ring, ?_⟩
    · have : (q.2 - a.2) / (b.2 - a.2) ≤ 1 := by
        rw [div_le_one hpos]; linarith
      linarith
    · exact div_nonneg (by linarith) (le_of_lt hpos)
    · apply Prod.ext
      · rw [Prod.fst_add, Prod.smul_fst, Prod.smul_fst, smul_eq_mul, smul_eq_mul,
          h1, h1']
        ring
      · rw [Prod.snd_add, Prod.smul_snd, Prod.smul_snd, smul_eq_mul, smul_eq_mul]
        field_simp
        ring

/-- A point bracketed by a lower edge a → b from below and an upper edge
d → c (traversed right to left as c → d) from above lies in the convex hull of
any set containing the four edge endpoints. -/
lemma finale {Sset : Set (ℚ × ℚ)} {a b c d q : ℚ × ℚ}
    (ha : a ∈ Sset) (hb : b ∈ Sset) (hc : c ∈ Sset) (hd : d ∈ Sset)
    (haq : lexLe a q) (hqb : lexLe q b) (hlow : 0 ≤ cross a b q)
    (hdq : lexLe d q) (hqc : lexLe q c) (hhigh : 0 ≤ cross c d q) :
    q ∈ convexHull ℚ Sset := by
  have hconv := convex_convexHull ℚ Sset
  have haH := subset_convexHull ℚ Sset ha
  have hbH := subset_convexHull ℚ Sset hb
  have hcH := subset_convexHull ℚ Sset hc
  have hdH := subset_convexHull ℚ Sset hd
  by_cases hab : b.1 = a.1
  · have hq1 : q.1 = a.1 := le_antisymm (hab ▸ lexLe_fst hqb) (lexLe_fst haq)
    have h2 : a.2 ≤ q.2 := by
      rcases haq with h | ⟨_, h⟩
      · rw [hq1] at h; exact absurd h (lt_irrefl a.1)
      · exact h
    have h3 : q.2 ≤ b.2 := by
      rcases hqb with h | ⟨_, h⟩
      · rw [hq1, hab] at h; exact absurd h (lt_irrefl a.1)
      · exact h
    exact hconv.segment_subset haH hbH (seg_vertical hq1 hab h2 h3)
  · by_cases hcd : c.1 = d.1
    · have hq1 : q.1 = d.1 := le_antisymm (hcd ▸ lexLe_fst hqc) (lexLe_fst hdq)
      have h2 : d.2 ≤ q.2 := by
        rcases hdq with h | ⟨_, h⟩
        · rw [hq1] at h; exact absurd h (lt_irrefl d.1)
        · exact h
      have h3 : q.2 ≤ c.2 := by
        rcases hqc with h | ⟨_, h⟩
        · rw [hq1, ← hcd] at h; exact absurd h (lt_irrefl c.1)
        · exact h
      exact hconv.segment_subset hdH hcH (seg_vertical hq1 hcd h2 h3)
    · have hposb : 0 < b.1 - a.1 := by
        have h := (lexLe_fst haq).trans (lexLe_fst hqb)
        rcases lt_or_eq_of_le h with h | h
        · linarith
        · exact absurd h.symm hab
      have hposc : 0 < c.1 - d.1 := by
        have h := (lexLe_fst hdq).trans (lexLe_fst hqc)
        rcases lt_or_eq_of_le h with h | h
        · linarith
        · exact absurd h.symm hcd
      set t := (q.1 - a.1) / (b.1 - a.1) with htdef
      set s := (q.1 - d.1) / (c.1 - d.1) with hsdef
      set low := (1 - t) • a + t • b with hlowdef
      set high := (1 - s) • d + s • c with hhighdef
      have ht0 : 0 ≤ t := div_nonneg (by linarith [lexLe_fst haq]) (le_of_lt hposb)
      have ht1 : t ≤ 1 := by
        rw [htdef, div_le_one hposb]; linarith [lexLe_fst hqb]
      have hs0 : 0 ≤ s := div_nonneg (by linarith [lexLe_fst hdq]) (le_of_lt hposc)
      have hs1 : s ≤ 1 := by
        rw [hsdef, div_le_one hposc]; linarith [lexLe_fst hqc]
      have hlowseg : low ∈ segment ℚ a b := ⟨1 - t, t, by linarith, ht0, by ring, rfl⟩
      have hhighseg : high ∈ segment ℚ d c := ⟨1 - s, s, by linarith, hs0, by ring, rfl⟩
      have hlow1 : low.1 = q.1 := by
        rw [hlowdef, Prod.fst_add, Prod.smul_fst, Prod.smul_fst, smul_eq_mul,
          smul_eq_mul, htdef]
        field_simp
        ring
      have hhigh1 : high.1 = q.1 := by
        rw [hhighdef, Prod.fst_add, Prod.smul_fst, Prod.smul_fst, smul_eq_mul,
          smul_eq_mul, hsdef]
        field_simp
        ring
      have hlow2 : low.2 ≤ q.2 := by
        have hkey : (q.1 - a.1) * (b.2 - a.2) ≤ (q.2 - a.2) * (b.1 - a.1) := by
          unfold cross at hlow; nlinarith [hlow]
        have hlowval : low.2 = a.2 + ((q.1 - a.1) * (b.2 - a.2)) / (b.1 - a.1) := by
          rw [hlowdef, Prod.snd_add, Prod.smul_snd, Prod.smul_snd, smul_eq_mul,
            smul_eq_mul, htdef]
          field_simp
          ring
        rw [hlowval]
        have hdiv := (div_le_iff₀ hposb).mpr hkey
        linarith
      have hhigh2 : q.2 ≤ high.2 := by
        have hkey : (q.2 - d.2) * (c.1 - d.1) ≤ (q.1 - d.1) * (c.2 - d.2) := by
          unfold cross at hhigh; nlinarith [hhigh]
        have hhighval : high.2 = d.2 + ((q.1 - d.1) * (c.2 - d.2)) / (c.1 - d.1) := by
          rw [hhighdef, Prod.snd_add, Prod.smul_snd, Prod.smul_snd, smul_eq_mul,
            smul_eq_mul, hsdef]
          field_simp
          ring
        rw [hhighval]
        have hdiv := (le_div_iff₀ hposc).mpr hkey
        linarith
      have hqseg : q ∈ segment ℚ low high :=
        seg_vertical hlow1.symm (hhigh1.trans hlow1.symm) hlow2 hhigh2
      exact hconv.segment_subset (hconv.segment_subset haH hbH hlowseg)
        (hconv.segment_subset hdH hcH hhighseg) hqseg

lemma sorted_mergeSort_lexLe (points : List (ℚ × ℚ)) :
    (points.mergeSort (fun a b => decide (lexLe a b))).Pairwise lexLe := by
  have h := @List.sorted_mergeSort (ℚ × ℚ)
    (fun a b : ℚ × ℚ => decide (lexLe a b))
    (fun a b c hab hbc =>
      decide_eq_true (lexLe_trans (of_decide_eq_true hab) (of_decide_eq_true hbc)))
    (fun a b => by
      rcases lexLe_total a b with h | h
      · simp [decide_eq_true h]
      · simp [decide_eq_true h])
    points
  exact h.imp (fun h => of_decide_eq_true h)

lemma mem_dropLast_or_getLast? {α : Type _} {x : α} {l : List α} (h : x ∈ l) :
    x ∈ l.dropLast ∨ l.getLast? = some x := by
  have hne := List.ne_nil_of_mem h
  rw [← List.dropLast_append_getLast hne] at h
  rcases List.mem_append.mp h with h | h
  · exact Or.inl h
  · right
    rw [List.getLast?_eq_getLast l hne]
    exact congrArg some (List.mem_singleton.mp h).symm

lemma head_mem_dropLast {α : Type _} {l : List α} (h2 : 2 ≤ l.length) {x : α}
    (hx : l.head? = some x) : x ∈ l.dropLast := by
  cases l with
  | nil => simp at hx
  | cons a t =>
    cases t with
    | nil => simp at h2
    | cons b t' =>
      have hxa : a = x := by
        rw [List.head?_cons] at hx
        exact Option.some.inj hx
      subst hxa
      rw [List.dropLast_cons₂]
      exact List.mem_cons_self _ _

lemma foldl_addPoint_nil_ne_nil (l : List (ℚ × ℚ)) (hl : l ≠ []) :
    l.foldl addPoint [] ≠ [] := by
  cases l with
  | nil => exact absurd rfl hl
  | cons x t =>
    rw [List.foldl_cons]
    exact foldl_addPoint_ne_nil t _ (List.cons_ne_nil x [])

lemma foldl_addPoint_nil_getLast? (l : List (ℚ × ℚ)) (hl : l ≠ []) :
    (l.foldl addPoint []).getLast? = l.head? := by
  cases l with
  | nil => exact absurd rfl hl
  | cons x t =>
    rw [List.foldl_cons]
    show (t.foldl addPoint [x]).getLast? = some x
    rw [foldl_addPoint_getLast? t [x] (List.cons_ne_nil x [])]
    rfl

lemma foldl_addPoint_nil_two_le (l : List (ℚ × ℚ)) (hl2 : 2 ≤ l.length) :
    2 ≤ (l.foldl addPoint []).length := by
  cases l with
  | nil => simp at hl2
  | cons x t =>
    rw [List.foldl_cons]
    have ht : t ≠ [] := by
      cases t
      · simp at hl2
      · exact List.cons_ne_nil _ _
    exact foldl_addPoint_two_le t _ (List.cons_ne_nil x []) ht

lemma foldl_addPoint_nil_justified (l : List (ℚ × ℚ)) (hpair : l.Pairwise lexLe) :
    ∀ q ∈ l, Justified (l.foldl addPoint []) q :=
  (foldl_addPoint_justified l [] List.chain'_nil (by simp) hpair).2

/-- C7. Every input point lies in the convex hull of the ring returned by
createConvexHull. -/
theorem hull_contains_input (points : List (ℚ × ℚ)) :
    ∀ p ∈ points, p ∈ convexHull ℚ {x | x ∈ createConvexHull points} := by
  intro q hq
  by_cases hlen : points.length < 3
  · have hout : createConvexHull points = points := by
      unfold createConvexHull
      rw [if_pos hlen]
    exact subset_convexHull ℚ _ (by rw [Set.mem_setOf_eq, hout]; exact hq)
  · have hout : createConvexHull points
        = ((points.mergeSort (fun a b => decide (lexLe a b))).foldl
            addPoint []).reverse.dropLast
          ++ ((points.mergeSort (fun a b => decide (lexLe a b))).reverse.foldl
            addPoint []).reverse.dropLast := by
      simp only [createConvexHull, if_neg hlen]
    set sorted := points.mergeSort (fun a b => decide (lexLe a b)) with hsorteddef
    set stackL := sorted.foldl addPoint [] with hstackLdef
    set stackU := sorted.reverse.foldl addPoint [] with hstackUdef
    have hslen : sorted.length = points.length := (List.mergeSort_perm points _).length_eq
    have hlen3 : 3 ≤ sorted.length := by omega
    have hsne : sorted ≠ [] := by
      intro h
      rw [h] at hlen3
      simp at hlen3
    have hsne2 : 2 ≤ sorted.length := by omega
    have hrne : sorted.reverse ≠ [] := by
      intro h
      rw [← List.length_eq_zero, List.length_reverse] at h
      omega
    have hrne2 : 2 ≤ sorted.reverse.length := by
      rw [List.length_reverse]; omega
    have hq_sorted : q ∈ sorted := List.mem_mergeSort.mpr hq
    have hpair : sorted.Pairwise lexLe := sorted_mergeSort_lexLe points
    -- endpoints plumbing
    have hL_last : stackL.getLast? = sorted.head? := foldl_addPoint_nil_getLast? sorted hsne
    have hL_head : stackL.head? = sorted.getLast? := foldl_addPoint_head? sorted [] hsne
    have hU_last : stackU.getLast? = sorted.getLast? := by
      rw [hstackUdef, foldl_addPoint_nil_getLast? sorted.reverse hrne, List.head?_reverse]
    have hU_head : stackU.head? = sorted.head? := by
      rw [hstackUdef, foldl_addPoint_head? sorted.reverse [] hrne, List.getLast?_reverse]
    have hL2 : 2 ≤ stackL.length := foldl_addPoint_nil_two_le sorted hsne2
    have hU2 : 2 ≤ stackU.length := foldl_addPoint_nil_two_le sorted.reverse hrne2
    -- ring membership of every chain point
    have hring_right : ∀ x ∈ stackU.reverse.dropLast, x ∈ createConvexHull points := by
      intro x hx
      rw [hout]
      exact List.mem_append.mpr (Or.inr hx)
    have hring_left : ∀ x ∈ stackL.reverse.dropLast, x ∈ createConvexHull points := by
      intro x hx
      rw [hout]
      exact List.mem_append.mpr (Or.inl hx)
    have hstackL_ring : ∀ x ∈ stackL, x ∈ createConvexHull points := by
      intro x hx
      rcases mem_dropLast_or_getLast? (List.mem_reverse.mpr hx) with h | h
      · exact hring_left x h
      · -- x is the head of stackL, i.e. the lex-max; it heads the upper chain
        rw [List.getLast?_reverse, hL_head] at h
        apply hring_right
        apply head_mem_dropLast (by rw [List.length_reverse]; omega)
        rw [List.head?_reverse, hU_last]
        exact h
    have hstackU_ring : ∀ x ∈ stackU, x ∈ createConvexHull points := by
      intro x hx
      rcases mem_dropLast_or_getLast? (List.mem_reverse.mpr hx) with h | h
      · exact hring_right x h
      · rw [List.getLast?_reverse, hU_head] at h
        apply hring_left
        apply head_mem_dropLast (by rw [List.length_reverse]; omega)
        rw [List.head?_reverse, hL_last]
        exact h
    -- justification on the lower chain
    have JL : Justified stackL q := foldl_addPoint_nil_justified sorted hpair q hq_sorted
    -- justification on the upper chain via negation
    have hlneg_pair : (sorted.reverse.map (fun x : ℚ × ℚ => -x)).Pairwise lexLe := by
      rw [List.pairwise_map]
      have h1 : sorted.reverse.Pairwise (fun a b => lexLe b a) := by
        rw [List.pairwise_reverse]
        exact hpair
      exact h1.imp (fun h => lexLe_neg.mpr h)
    have hTU : (sorted.reverse.map (fun x : ℚ × ℚ => -x)).foldl addPoint []
        = stackU.map (fun x : ℚ × ℚ => -x) := by
      exact foldl_addPoint_map_neg sorted.reverse []
    have hnegq : -q ∈ sorted.reverse.map (fun x : ℚ × ℚ => -x) :=
      List.mem_map.mpr ⟨q, List.mem_reverse.mpr hq_sorted, rfl⟩
    have JU0 : Justified (stackU.map (fun x : ℚ × ℚ => -x)) (-q) := by
      rw [← hTU]
      exact foldl_addPoint_nil_justified _ hlneg_pair (-q) hnegq
    have JU := justified_of_neg JU0
    -- case analysis
    rcases JL with hqL | ⟨prL, hprL, hL2q, hLq1, hLcr⟩
    · exact subset_convexHull ℚ _ (by rw [Set.mem_setOf_eq]; exact hstackL_ring q hqL)
    rcases JU with hqU | ⟨prU, hprU, hU1q, hUq2, hUcr⟩
    · exact subset_convexHull ℚ _ (by rw [Set.mem_setOf_eq]; exact hstackU_ring q hqU)
    obtain ⟨hprL1, hprL2⟩ := mem_chainPairs hprL
    obtain ⟨hprU1, hprU2⟩ := mem_chainPairs hprU
    exact finale (Set.mem_setOf_eq ▸ hstackL_ring prL.2 hprL2)
      (Set.mem_setOf_eq ▸ hstackL_ring prL.1 hprL1)
      (Set.mem_setOf_eq ▸ hstackU_ring prU.2 hprU2)
      (Set.mem_setOf_eq ▸ hstackU_ring prU.1 hprU1)
      hL2q hLq1 hLcr hU1q hUq2 hUcr

/-- C7 witness: containment applied to a concrete 4-point set whose interior
point (1,1) is not a hull vertex. -/
theorem hull_contains_input_witness :
    (((1 : ℚ), (1 : ℚ)) ∈ [((0 : ℚ), (0 : ℚ)), (2, 0), (0, 2), (1, 1)]) ∧
      ((1 : ℚ), (1 : ℚ)) ∈ convexHull ℚ
        {x | x ∈ createConvexHull [((0 : ℚ), (0 : ℚ)), (2, 0), (0, 2), (1, 1)]} :=
  ⟨by decide, hull_contains_input [((0 : ℚ), (0 : ℚ)), (2, 0), (0, 2), (1, 1)]
    ((1 : ℚ), (1 : ℚ)) (by decide)⟩

end FloodMap
